import Mathlib

/-!
Verification of the core text-extraction pipeline of `HTMLextraction.py`
(Universal Precision Extractor): block collection, heuristic scoring,
threshold calibration, fingerprint deduplication, and the containment-based
longest-survivor deduplication of the JSONL→TXT post-processor.

Modelling conventions (shallow embedding):
* A Python string is modelled as the list of its character code points
  (`Text := List Nat`).  `str.lower`, regex classes `\w` and `\s`, and the
  punctuation class `[,.!?;:]` are modelled at ASCII level.
* Python floats are modelled as real numbers; the logistic curves use
  `Real.exp`, so score-producing functions are `noncomputable` while every
  structural function (splitting, fingerprinting, dedup decisions) remains
  executable.
* `list.sort(key=..., reverse=True)` (CPython's stable sort) is modelled by
  `List.insertionSort` with the relation "my key is ≥ yours", which is the
  stable descending sort.
* The parsed document handed to `collect_blocks` is modelled as
  `Option (List Node)`: `soup.body` may be `None` (no body element), and the
  descendant tags otherwise appear as a list in document order, each carrying
  its name, its `get_text(" ", strip=True)` result and its ancestor count.
-/

namespace HX

open List

/-- A Python string, as the list of its character code points. -/
abbrev Text := List Nat

/-- Code points of a Lean string literal, used for concrete inputs. -/
def strCodes (s : String) : Text := s.data.map Char.toNat

/-- Python `str.lower` on one code point (ASCII model). -/
def lowerCode (n : Nat) : Nat := if 65 ≤ n ∧ n ≤ 90 then n + 32 else n

/-- Python regex class `\s` (ASCII model): space, TAB, LF, CR, VT, FF. -/
def isSpaceCode (n : Nat) : Bool :=
  decide (n = 32 ∨ n = 9 ∨ n = 10 ∨ n = 13 ∨ n = 11 ∨ n = 12)

/-- Python regex class `\w` (ASCII model): `[0-9A-Za-z_]`. -/
def isWordCode (n : Nat) : Bool :=
  decide ((48 ≤ n ∧ n ≤ 57) ∨ (65 ≤ n ∧ n ≤ 90) ∨ (97 ≤ n ∧ n ≤ 122) ∨ n = 95)

/-- The punctuation class `[,.!?;:]` of `_RE_PUNCT`. -/
def isPunctCode (n : Nat) : Bool :=
  decide (n = 44 ∨ n = 46 ∨ n = 33 ∨ n = 63 ∨ n = 59 ∨ n = 58)

/-- One step of splitting on whitespace (builds the word list from the right). -/
def addChar (c : Nat) (acc : List Text) : List Text :=
  if isSpaceCode c then [] :: acc
  else
    match acc with
    | [] => [[c]]
    | w :: ws => (c :: w) :: ws

/-- Python `str.split()` (no argument): maximal runs of non-whitespace. -/
def pySplit (t : Text) : List Text := (t.foldr addChar []).filter (fun w => !w.isEmpty)

/-- Join words with single spaces; composed with `pySplit` this models
`re.sub(r"\s+", " ", text.strip())`. -/
def joinWords : List Text → Text
  | [] => []
  | [w] => w
  | w :: ws => w ++ 32 :: joinWords ws

/-- Model of `re.sub(r"\s+([,.!?;:])", r"\1", text)`: delete every whitespace
character that (after the deletions to its right) immediately precedes a
punctuation character. -/
def stripWsPunct (t : Text) : Text :=
  t.foldr
    (fun c acc =>
      if isSpaceCode c && (match acc.head? with
        | some d => isPunctCode d
        | none => false) then acc
      else c :: acc) []

/-- Model of `_collapse_ws`: strip, collapse whitespace runs to one space,
then remove spaces before terminal punctuation. -/
def collapse_ws (t : Text) : Text := stripWsPunct (joinWords (pySplit t))

/-- Model of `_fingerprint`: `re.sub(r"[^\w\s]", "", text.lower())`. -/
def fingerprint (t : Text) : Text :=
  (t.map lowerCode).filter (fun c => isWordCode c || isSpaceCode c)

/-- Model of `_normalize` in the JSONL→TXT pass:
`_RE_PUNC.sub(" ", text.lower())` followed by whitespace collapsing and strip. -/
def normalize (t : Text) : Text :=
  joinWords (pySplit ((t.map lowerCode).map
    (fun c => if isWordCode c || isSpaceCode c then c else 32)))

/-- Python `str.strip()` (whitespace at both ends). -/
def pyStrip (t : Text) : Text :=
  ((t.dropWhile isSpaceCode).reverse.dropWhile isSpaceCode).reverse

theorem lowerCode_idem (n : Nat) : lowerCode (lowerCode n) = lowerCode n := by
  simp only [lowerCode]
  split_ifs <;> omega

theorem lowerCode_fixed_of_mem {t : Text} {c : Nat} (h : c ∈ t.map lowerCode) :
    lowerCode c = c := by
  rcases List.mem_map.mp h with ⟨d, _, rfl⟩
  exact lowerCode_idem d

/-- The fingerprint function is idempotent. -/
theorem fingerprint_idem (t : Text) : fingerprint (fingerprint t) = fingerprint t := by
  unfold fingerprint
  have hmap :
      (((t.map lowerCode).filter (fun c => isWordCode c || isSpaceCode c)).map lowerCode)
        = (t.map lowerCode).filter (fun c => isWordCode c || isSpaceCode c) := by
    rw [show ((t.map lowerCode).filter (fun c => isWordCode c || isSpaceCode c)).map lowerCode
          = ((t.map lowerCode).filter (fun c => isWordCode c || isSpaceCode c)).map id from ?_,
        List.map_id]
    apply List.map_congr_left
    intro c hc
    exact lowerCode_fixed_of_mem (List.mem_of_mem_filter hc)
  rw [hmap]
  apply List.filter_eq_self.mpr
  intro c hc
  exact (List.mem_filter.mp hc).2

/-- The `_STOPWORDS` set of the source, as code-point words. -/
def STOPWORDS : List Text :=
  (["the", "be", "to", "of", "and", "a", "in", "that", "have", "i", "it", "for",
    "not", "on", "with", "he", "as", "you", "do", "at", "this", "but", "his",
    "by", "from", "they", "we", "say", "her", "she", "or", "an", "will", "my",
    "one", "all", "would", "there", "their", "what", "so", "up", "out", "if",
    "about", "who", "get", "which", "go", "me", "is", "are", "was", "were",
    "been", "being", "has", "had"]).map strCodes

/-- Model of `_logistic`: `1 / (1 + exp(-k * (x - x0)))`. -/
noncomputable def logistic (k x0 x : ℝ) : ℝ :=
  1 / (1 + Real.exp (-(k * (x - x0))))

/-- The `features` dictionary produced by `_score_text`. -/
structure Feat where
  wc : Nat
  punc : ℝ
  stop : ℝ

/-- Model of `_score_text`. -/
noncomputable def score_text (t : Text) : ℝ × Feat :=
  let words := pySplit t
  let wc := words.length
  if wc = 0 then (0, ⟨0, 0, 0⟩)
  else
    let punc : ℝ := (t.countP isPunctCode : ℝ) / (wc : ℝ)
    let stop : ℝ := (words.countP (fun w => STOPWORDS.contains (w.map lowerCode)) : ℝ) / (wc : ℝ)
    (0.50 * logistic 0.10 40 (wc : ℝ)
       + 0.25 * logistic 10 0.05 punc
       + 0.25 * logistic 10 0.25 stop,
     ⟨wc, punc, stop⟩)

/-- Model of the `Block` dataclass (the `torch.Tensor` embedding is modelled as
an optional real vector; it is `None` unless the semantic stage sets it). -/
structure Block where
  pos : Nat
  tag : String
  depth : Nat
  text : Text
  score : ℝ
  features : Feat
  dup_reason : Option String := none
  embedding : Option (List ℝ) := none

/-- JSON values appearing in a serialized record. -/
inductive Jval where
  | nat (n : Nat)
  | str (s : String)
  | txt (t : Text)
  | real (r : ℝ)
  | feat (f : Feat)
  | ostr (o : Option String)

/-- Model of `Block.to_json`: `asdict(self)` lists the dataclass fields in
declaration order (`pos, tag, depth, text, score, features, dup_reason,
embedding`), then `data.pop("embedding", None)` removes the embedding. -/
def Block.to_json (b : Block) : List (String × Jval) :=
  [("pos", .nat b.pos), ("tag", .str b.tag), ("depth", .nat b.depth),
   ("text", .txt b.text), ("score", .real b.score),
   ("features", .feat b.features), ("dup_reason", .ostr b.dup_reason)]

/-- The JSONL payload written by `main`: one record per surviving block,
in order. -/
def serialize_records (blocks : List Block) : List (List (String × Jval)) :=
  blocks.map Block.to_json

def MIN_THRESH : ℝ := 0.25

def MAX_THRESH : ℝ := 0.60

theorem auto_threshold_idx_lt (b : Block) (bs : List Block) :
    ((b :: bs).length * 70) / 100 <
      (List.insertionSort (· ≤ ·) ((b :: bs).map Block.score)).length := by
  rw [List.length_insertionSort, List.length_map]
  have hpos : 0 < (b :: bs).length := by simp
  have : (b :: bs).length * 70 < (b :: bs).length * 100 := by omega
  exact Nat.div_lt_of_lt_mul (by omega)

/-- Model of `_auto_threshold`: empty corpus returns the band minimum;
otherwise sort the scores ascending, pick index `int(n * 70 / 100)`
(exact integer arithmetic: for these magnitudes the Python float expression
`int(len(scores) * 70 / 100)` equals `floor(n * 70 / 100)`), and clamp
into `[MIN_THRESH, MAX_THRESH]`. -/
noncomputable def auto_threshold : List Block → ℝ
  | [] => MIN_THRESH
  | b :: bs =>
    max MIN_THRESH (min MAX_THRESH
      ((List.insertionSort (· ≤ ·) ((b :: bs).map Block.score)).get
        ⟨((b :: bs).length * 70) / 100, auto_threshold_idx_lt b bs⟩))

/-- The mutation `b.dup_reason = "fingerprint"` performed on a dropped block. -/
def markFp (b : Block) : Block := { b with dup_reason := some "fingerprint" }

/-- Model of the loop of `dedup_fingerprint`.  The first component is the
input list with each dropped block mutated (`dup_reason = "fingerprint"`),
the second is the `keep` list.  The Python `set` of seen fingerprints is
modelled as a list queried by membership. -/
def dedup_fp_go (seen : List Text) : List Block → List Block × List Block
  | [] => ([], [])
  | b :: rest =>
    if fingerprint b.text ∈ seen then
      let p := dedup_fp_go seen rest
      (markFp b :: p.1, p.2)
    else
      let p := dedup_fp_go (fingerprint b.text :: seen) rest
      (b :: p.1, b :: p.2)

/-- The value returned by `dedup_fingerprint` (the kept blocks). -/
def dedup_fingerprint (blocks : List Block) : List Block := (dedup_fp_go [] blocks).2

/-- The caller-visible state of the input blocks after `dedup_fingerprint`
(dropped blocks carry `dup_reason = "fingerprint"`). -/
def dedup_fp_marked (blocks : List Block) : List Block := (dedup_fp_go [] blocks).1

/-- A tag element of the parsed document, in document order: its name, the
result of `get_text(" ", strip=True)`, and `len(list(node.parents)) - 1`.
Non-`Tag` descendants are represented by nodes whose name is not a block tag. -/
structure Node where
  name : String
  textContent : Text
  depth : Nat

def BLOCK_TAGS : List String := ["h1", "h2", "h3", "h4", "h5", "h6", "p", "li", "div"]

/-- Model of the traversal loop of `collect_blocks`: `pos` counts only
emitted blocks, elements with empty collapsed text are skipped. -/
noncomputable def collect_go : List Node → Nat → List Block
  | [], _ => []
  | n :: rest, pos =>
    if n.name ∈ BLOCK_TAGS then
      let t := collapse_ws n.textContent
      if t.isEmpty then collect_go rest pos
      else
        { pos := pos, tag := n.name, depth := n.depth, text := t,
          score := (score_text t).1, features := (score_text t).2 } :: collect_go rest (pos + 1)
    else collect_go rest pos

/-- Model of `collect_blocks`.  `soup.body` is an `Option`: when the document
has no body element it is `None`, and `soup.body.descendants` raises
`AttributeError`, modelled by `Except.error`. -/
noncomputable def collect_blocks : Option (List Node) → Except String (List Block)
  | none => .error "AttributeError"
  | some nodes => .ok (collect_go nodes 0)

/-- Model of the loop of `dedup_semantic`, abstracting the embedding model:
`simAbove i j` stands for `cos_sim(embs[i], embs[j]) >= sim_thr`. -/
def dedup_sem_go (simAbove : Nat → Nat → Bool) :
    List (Nat × Block) → List Nat → List Block
  | [], _ => []
  | (i, b) :: rest, idxs =>
    if idxs.any (fun j => simAbove i j) then dedup_sem_go simAbove rest idxs
    else b :: dedup_sem_go simAbove rest (idxs ++ [i])

/-- Model of `dedup_semantic` (the similarity oracle is a parameter). -/
def dedup_semantic (simAbove : Nat → Nat → Bool) (blocks : List Block) : List Block :=
  dedup_sem_go simAbove blocks.enum []

/-- A parsed JSONL record during read-back; only the `text` field matters to
`jsonl_to_txt`, and `rec.get("text")` yields `None` when the key is missing
or null. -/
structure JRecord where
  text : Option Text

/-- The paragraph-collection loop of `jsonl_to_txt`:
`txt = (rec.get("text") or "").strip(); if txt: paragraphs.append(txt)`. -/
def read_paragraphs : List JRecord → List Text
  | [] => []
  | r :: rest =>
    let txt := pyStrip (r.text.getD [])
    if txt.isEmpty then read_paragraphs rest else txt :: read_paragraphs rest

/-- The final TXT payload: each unique paragraph followed by a blank line. -/
def txt_output (paras : List Text) : Text :=
  (paras.map (fun p => p ++ strCodes "\n\n")).flatten

/-- One entry of the `items` list of `_dedup_keep_longest`:
`(original index, raw line, normalized line)`. -/
structure Item where
  idx : Nat
  raw : Text
  nrm : Text
deriving DecidableEq

/-- Model of `[(i, ln, _normalize(ln)) for i, ln in enumerate(lines)]`, with
an explicit starting index. -/
def buildItems : Nat → List Text → List Item
  | _, [] => []
  | i, x :: xs => ⟨i, x, normalize x⟩ :: buildItems (i + 1) xs

/-- The sort relation of `items.sort(key=lambda t: len(t[2]), reverse=True)`:
`a` may come before `b` when `a`'s key is at least `b`'s.  A stable insertion
sort on this relation is exactly CPython's stable descending sort. -/
def keyGE (a b : Item) : Prop := b.nrm.length ≤ a.nrm.length

instance : DecidableRel keyGE := fun x y => Nat.decLe y.nrm.length x.nrm.length

instance : IsTotal Item keyGE :=
  ⟨fun a b => Nat.le_total b.nrm.length a.nrm.length⟩

instance : IsTrans Item keyGE :=
  ⟨fun _ _ _ hab hbc => le_trans hbc hab⟩

/-- The ascending-index relation of `sorted(kept_raw)`. -/
def idxLE (a b : Item) : Prop := a.idx ≤ b.idx

instance : DecidableRel idxLE := fun x y => Nat.decLe x.idx y.idx

instance : IsTotal Item idxLE := ⟨fun a b => Nat.le_total a.idx b.idx⟩

instance : IsTrans Item idxLE := ⟨fun _ _ _ hab hbc => le_trans hab hbc⟩

/-- The acceptance loop of `_dedup_keep_longest`.  `kept` plays both roles of
`kept_raw` and `canon` in the source: `canon` is exactly the list of
normalized forms of the accepted items, in acceptance order, and a candidate
is dropped when its normalized form is a substring of some accepted one. -/
def keepGo : List Item → List Item → List Item
  | [], kept => kept
  | it :: rest, kept =>
    if ∃ k ∈ kept, it.nrm <:+: k.nrm then keepGo rest kept
    else keepGo rest (kept ++ [it])

/-- The accepted items of `_dedup_keep_longest`, in ascending original index
(`sorted(kept_raw)`). -/
def survivors (lines : List Text) : List Item :=
  List.insertionSort idxLE (keepGo (List.insertionSort keyGE (buildItems 0 lines)) [])

/-- Model of `_dedup_keep_longest`: the raw texts of the surviving items,
in original relative order. -/
def dedup_keep_longest (lines : List Text) : List Text :=
  (survivors lines).map Item.raw

/-- The fingerprint of a block's text. -/
def fpOf (b : Block) : Text := fingerprint b.text

theorem fpgo_keep_sublist (l : List Block) (seen : List Text) :
    (dedup_fp_go seen l).2 <+ l := by
  induction l generalizing seen with
  | nil => simp [dedup_fp_go]
  | cons b rest ih =>
    by_cases h : fingerprint b.text ∈ seen
    · simpa [dedup_fp_go, h] using (ih seen).cons b
    · simpa [dedup_fp_go, h] using (ih (fingerprint b.text :: seen)).cons₂ b

theorem fpgo_keep_fps (l : List Block) (seen : List Text) :
    ((dedup_fp_go seen l).2.map fpOf).Nodup ∧
      ∀ x ∈ (dedup_fp_go seen l).2.map fpOf, x ∉ seen := by
  induction l generalizing seen with
  | nil => simp [dedup_fp_go]
  | cons b rest ih =>
    by_cases h : fingerprint b.text ∈ seen
    · simpa [dedup_fp_go, h] using ih seen
    · have ih' := ih (fingerprint b.text :: seen)
      simp only [dedup_fp_go, if_neg h, List.map_cons, List.nodup_cons, List.mem_cons]
      refine ⟨⟨fun hmem => ?_, ih'.1⟩, fun x hx => ?_⟩
      · exact (ih'.2 _ hmem) (by simp [fpOf])
      · rcases hx with rfl | hx
        · exact h
        · exact fun hseen => (ih'.2 x hx) (List.mem_cons_of_mem _ hseen)

theorem fpgo_keep_of_fresh (l : List Block) (seen : List Text)
    (hnd : (l.map fpOf).Nodup) (hfresh : ∀ x ∈ l.map fpOf, x ∉ seen) :
    (dedup_fp_go seen l).2 = l := by
  induction l generalizing seen with
  | nil => simp [dedup_fp_go]
  | cons b rest ih =>
    have hb : fingerprint b.text ∉ seen := hfresh _ (by simp [fpOf])
    simp only [dedup_fp_go, if_neg hb, List.cons.injEq, true_and]
    have hnd0 : fpOf b ∉ rest.map fpOf ∧ (rest.map fpOf).Nodup := by
      rw [List.map_cons, List.nodup_cons] at hnd
      exact hnd
    refine ih (fingerprint b.text :: seen) hnd0.2 fun x hx => ?_
    intro hmem
    rcases List.mem_cons.mp hmem with rfl | hmem'
    · exact hnd0.1 hx
    · exact hfresh x (List.mem_cons_of_mem _ hx) hmem'

theorem dedup_fingerprint_idem (bs : List Block) :
    dedup_fingerprint (dedup_fingerprint bs) = dedup_fingerprint bs := by
  have h := fpgo_keep_fps bs []
  exact fpgo_keep_of_fresh _ [] h.1 (by simp)

theorem fpgo_keeps_first (l₁ : List Block) (b : Block) (l₂ : List Block)
    (seen : List Text) (hseen : fpOf b ∉ seen) (hfirst : fpOf b ∉ l₁.map fpOf) :
    b ∈ (dedup_fp_go seen (l₁ ++ b :: l₂)).2 := by
  induction l₁ generalizing seen with
  | nil =>
    simp only [List.nil_append, dedup_fp_go, if_neg (by simpa [fpOf] using hseen)]
    exact List.mem_cons_self _ _
  | cons x l₁' ih =>
    have hne : fpOf b ≠ fpOf x := by
      intro h
      exact hfirst (by simp [h])
    have hfirst' : fpOf b ∉ l₁'.map fpOf := fun h => hfirst (by simp [h])
    by_cases hx : fingerprint x.text ∈ seen
    · simpa [dedup_fp_go, hx] using ih seen hseen hfirst'
    · have : fpOf b ∉ fingerprint x.text :: seen := by
        intro h
        rcases List.mem_cons.mp h with h' | h'
        · exact hne h'
        · exact hseen h'
      simpa [dedup_fp_go, hx] using
        List.mem_cons_of_mem x (ih (fingerprint x.text :: seen) this hfirst')

theorem fpgo_marked_get? (l : List Block) (seen : List Text) (i : Nat) :
    (dedup_fp_go seen l).1.get? i =
      (l.get? i).map (fun b =>
        if fpOf b ∈ seen ∨ fpOf b ∈ (l.take i).map fpOf then markFp b else b) := by
  induction l generalizing seen i with
  | nil => simp [dedup_fp_go]
  | cons b rest ih =>
    by_cases h : fingerprint b.text ∈ seen
    · cases i with
      | zero => simp [dedup_fp_go, h, fpOf]
      | succ i' =>
        simp only [dedup_fp_go, if_pos h, List.get?_cons_succ, List.take_succ_cons,
          List.map_cons]
        rw [ih seen i']
        cases hx : rest.get? i' with
        | none => simp
        | some x =>
          simp only [Option.map_some']
          congr 1
          refine if_congr (Iff.intro (fun hc => ?_) (fun hc => ?_)) rfl rfl
          · exact hc.imp id (List.mem_cons_of_mem _)
          · rcases hc with hc | hc
            · exact Or.inl hc
            · rcases List.mem_cons.mp hc with heq | hc'
              · exact Or.inl (by rw [heq]; exact h)
              · exact Or.inr hc'
    · cases i with
      | zero => simp [dedup_fp_go, h, fpOf]
      | succ i' =>
        simp only [dedup_fp_go, if_neg h, List.get?_cons_succ, List.take_succ_cons,
          List.map_cons]
        rw [ih (fingerprint b.text :: seen) i']
        cases hx : rest.get? i' with
        | none => simp
        | some x =>
          simp only [Option.map_some']
          congr 1
          refine if_congr ?_ rfl rfl
          simp only [List.mem_cons, fpOf]
          tauto

/-- A concrete block used in the closed examples below. -/
noncomputable def blkA : Block :=
  { pos := 0, tag := "p", depth := 2, text := strCodes "Hello", score := 1 / 2,
    features := ⟨1, 0, 0⟩ }

/-- A second concrete block with a different fingerprint. -/
noncomputable def blkB : Block :=
  { pos := 1, tag := "li", depth := 3, text := strCodes "World", score := 1 / 3,
    features := ⟨1, 0, 0⟩ }

/-- C6: the fingerprint function is idempotent (`fingerprint ∘ fingerprint =
fingerprint`); `dedup_fingerprint` applied to its own output is the identity;
its output is a subsequence of its input (original order, survivors
unchanged); and the first occurrence of a distinct fingerprint is never
dropped. -/
theorem C6_fingerprint_dedup_idempotent :
    ∀ (t : Text) (bs l₁ l₂ : List Block) (b : Block),
      fingerprint (fingerprint t) = fingerprint t
      ∧ dedup_fingerprint (dedup_fingerprint bs) = dedup_fingerprint bs
      ∧ dedup_fingerprint bs <+ bs
      ∧ (fpOf b ∉ l₁.map fpOf → b ∈ dedup_fingerprint (l₁ ++ b :: l₂)) := by
  intro t bs l₁ l₂ b
  refine ⟨fingerprint_idem t, dedup_fingerprint_idem bs, fpgo_keep_sublist bs [], ?_⟩
  intro hfirst
  exact fpgo_keeps_first l₁ b l₂ [] (by simp) hfirst

/-- C6 witness: the block `blkA`, whose fingerprint does not occur earlier,
survives `dedup_fingerprint [blkB, blkA]`. -/
theorem C6_fingerprint_dedup_idempotent_witness :
    blkA ∈ dedup_fingerprint ([blkB] ++ blkA :: []) :=
  (C6_fingerprint_dedup_idempotent [] [] [blkB] [] blkA).2.2.2 (by decide)

/-- C1 (amended): a block dropped by `dedup_fingerprint` because its
fingerprint occurred earlier has its `dup_reason` set to `"fingerprint"`
(the source tag — not `"exact"` as the specification claims); surviving
blocks are passed through unchanged, so a surviving block of an input whose
blocks all carry `dup_reason = None` still carries `None`. -/
theorem C1_fingerprint_tag :
    ∀ (bs : List Block) (i : Nat) (b : Block),
      ((dedup_fp_marked bs).get? i =
        (bs.get? i).map (fun c =>
          if fpOf c ∈ (bs.take i).map fpOf then markFp c else c))
      ∧ (markFp b).dup_reason = some "fingerprint"
      ∧ (b ∈ dedup_fingerprint bs → b ∈ bs)
      ∧ (b ∈ dedup_fingerprint bs → (∀ c ∈ bs, c.dup_reason = none) →
          b.dup_reason = none) := by
  intro bs i b
  refine ⟨?_, rfl, fun hmem => (fpgo_keep_sublist bs []).subset hmem, ?_⟩
  · rw [dedup_fp_marked, fpgo_marked_get? bs [] i]
    cases bs.get? i with
    | none => rfl
    | some c => simp
  · intro hmem hall
    exact hall b ((fpgo_keep_sublist bs []).subset hmem)

/-- C1 witness: a surviving block of a `None`-tagged input still carries
`dup_reason = None`. -/
theorem C1_fingerprint_tag_witness : blkA.dup_reason = none :=
  (C1_fingerprint_tag [blkA] 0 blkA).2.2.2 (by simp [dedup_fingerprint, dedup_fp_go])
    (by intro c hc; rw [List.mem_singleton.mp hc]; rfl)

/-- C1 counterexample: dropping a duplicate sets `dup_reason = "fingerprint"`,
not the spec's tag `"exact"`. -/
theorem C1_fingerprint_tag_counterexample :
    (dedup_fp_marked [blkA, blkA]).map Block.dup_reason = [none, some "fingerprint"]
    ∧ some "fingerprint" ≠ some "exact" := by
  constructor
  · rfl
  · decide

/-- C2 (amended): the serialized record of a block has exactly the seven keys
`pos, tag, depth, text, score, features, dup_reason` in that order — the
`dup_reason` key is present (`null` for a survivor), the key holding the
position is spelled `pos`, and there is no `embedding` key; the JSONL
stream holds one record per surviving block in survivor order. -/
theorem C2_serialized_record_keys :
    ∀ (b : Block) (bs : List Block),
      (Block.to_json b).map Prod.fst =
        ["pos", "tag", "depth", "text", "score", "features", "dup_reason"]
      ∧ serialize_records bs = bs.map Block.to_json := by
  intro b bs
  exact ⟨rfl, rfl⟩

/-- C2 counterexample: the record of a concrete block carries the key
`dup_reason`, which is not among the six keys the specification allows. -/
theorem C2_serialized_record_keys_counterexample :
    "dup_reason" ∈ (Block.to_json blkA).map Prod.fst
    ∧ "dup_reason" ∉ ["position", "tag", "depth", "text", "score", "features"]
    ∧ "pos" ∉ ["position", "tag", "depth", "text", "score", "features"] := by
  refine ⟨?_, by decide, by decide⟩
  show "dup_reason" ∈ ["pos", "tag", "depth", "text", "score", "features", "dup_reason"]
  decide

/-- C5: the auto-calibrated threshold always lies in `[0.25, 0.60]`; the empty
corpus yields the band minimum `0.25`; and on a non-empty corpus it is the
clamp into the band of the entry at index `floor(n * 70 / 100)` of the
ascending sort of the scores. -/
theorem C5_auto_threshold :
    ∀ (blocks : List Block) (b : Block) (bs : List Block),
      MIN_THRESH ≤ auto_threshold blocks
      ∧ auto_threshold blocks ≤ MAX_THRESH
      ∧ auto_threshold [] = MIN_THRESH
      ∧ MIN_THRESH = 0.25
      ∧ MAX_THRESH = 0.60
      ∧ (auto_threshold (b :: bs) =
          max MIN_THRESH (min MAX_THRESH
            ((List.insertionSort (· ≤ ·) ((b :: bs).map Block.score)).get
              ⟨((b :: bs).length * 70) / 100, auto_threshold_idx_lt b bs⟩)))
      ∧ (List.insertionSort (· ≤ ·) ((b :: bs).map Block.score)).Sorted (· ≤ ·)
      ∧ List.insertionSort (· ≤ ·) ((b :: bs).map Block.score) ~ (b :: bs).map Block.score := by
  intro blocks b bs
  have hband : MIN_THRESH ≤ MAX_THRESH := by norm_num [MIN_THRESH, MAX_THRESH]
  refine ⟨?_, ?_, rfl, rfl, rfl, rfl, List.sorted_insertionSort _ _, List.perm_insertionSort _ _⟩
  · cases blocks with
    | nil => exact le_refl _
    | cons c cs => exact le_max_left _ _
  · cases blocks with
    | nil => exact hband
    | cons c cs => exact max_le hband (min_le_left _ _)

/-- Each logistic term lies strictly between 0 and 1. -/
theorem logistic_bounds (k x0 x : ℝ) : 0 < logistic k x0 x ∧ logistic k x0 x < 1 := by
  unfold logistic
  have he := Real.exp_pos (-(k * (x - x0)))
  constructor
  · positivity
  · rw [div_lt_one (by linarith)]
    linarith

/-- C7: the scorer is a pure function (two applications to the same text give
the same pair); a text with zero whitespace-separated words scores exactly 0
with a zero word count recorded in the features; and every score lies in
`[0, 1]`. -/
theorem C7_score_text :
    ∀ t : Text,
      score_text t = score_text t
      ∧ ((pySplit t).length = 0 → score_text t = (0, ⟨0, 0, 0⟩))
      ∧ 0 ≤ (score_text t).1
      ∧ (score_text t).1 ≤ 1 := by
  intro t
  by_cases h : (pySplit t).length = 0
  · refine ⟨rfl, fun _ => by simp [score_text, h], ?_, ?_⟩
    · simp [score_text, h]
    · simp [score_text, h]
  · have h1 := logistic_bounds 0.10 40 ((pySplit t).length : ℝ)
    have h2 := logistic_bounds 10 0.05
      ((t.countP isPunctCode : ℝ) / ((pySplit t).length : ℝ))
    have h3 := logistic_bounds 10 0.25
      (((pySplit t).countP (fun w => STOPWORDS.contains (w.map lowerCode)) : ℝ) /
        ((pySplit t).length : ℝ))
    refine ⟨rfl, fun h0 => absurd h0 h, ?_, ?_⟩
    · simp only [score_text, if_neg h]
      nlinarith [h1.1, h2.1, h3.1]
    · simp only [score_text, if_neg h]
      nlinarith [h1.2, h2.2, h3.2]

/-- C7 witness: the empty text splits into zero words and scores exactly 0,
with the zero-word features. -/
theorem C7_score_text_witness : score_text (strCodes "") = (0, ⟨0, 0, 0⟩) :=
  (C7_score_text (strCodes "")).2.1 (by decide)

theorem collect_go_pos_map (ns : List Node) (p : Nat) :
    (collect_go ns p).map Block.pos = List.range' p (collect_go ns p).length := by
  induction ns generalizing p with
  | nil => simp [collect_go]
  | cons n rest ih =>
    by_cases h1 : n.name ∈ BLOCK_TAGS
    · by_cases h2 : (collapse_ws n.textContent).isEmpty
      · simp [collect_go, h1, h2, ih]
      · simp [collect_go, h1, h2, ih, List.range'_succ]
    · simp [collect_go, h1, ih]

theorem collect_go_text_mem (ns : List Node) (p : Nat) :
    ∀ b ∈ collect_go ns p, b.text.isEmpty = false := by
  induction ns generalizing p with
  | nil => simp [collect_go]
  | cons n rest ih =>
    intro b hb
    by_cases h1 : n.name ∈ BLOCK_TAGS
    · by_cases h2 : (collapse_ws n.textContent).isEmpty
      · exact ih p b (by simpa [collect_go, h1, h2] using hb)
      · rw [collect_go] at hb
        simp only [if_pos h1, if_neg h2] at hb
        rcases List.mem_cons.mp hb with rfl | hb'
        · simpa using h2
        · exact ih (p + 1) b hb'
    · exact ih p b (by simpa [collect_go, h1] using hb)

theorem collect_go_tags (ns : List Node) (p : Nat) :
    (collect_go ns p).map (fun b => (b.tag, b.text)) =
      (ns.filter (fun n =>
        decide (n.name ∈ BLOCK_TAGS) && !(collapse_ws n.textContent).isEmpty)).map
        (fun n => (n.name, collapse_ws n.textContent)) := by
  induction ns generalizing p with
  | nil => simp [collect_go]
  | cons n rest ih =>
    by_cases h1 : n.name ∈ BLOCK_TAGS
    · by_cases h2 : (collapse_ws n.textContent).isEmpty
      · simp [collect_go, h1, h2, List.filter_cons, ih]
      · simp [collect_go, h1, h2, List.filter_cons, ih]
    · simp [collect_go, h1, List.filter_cons, ih]

/-- C8: the positions on the blocks emitted by the collector are exactly
`0..n-1` in order (skipped elements consume no position), every emitted block
has non-empty text, and the emitted `(tag, text)` sequence is exactly the
document-order sequence of allow-listed elements with non-empty collapsed
text. -/
theorem C8_collector_positions :
    ∀ ns : List Node,
      (collect_go ns 0).map Block.pos = List.range (collect_go ns 0).length
      ∧ ((collect_go ns 0).map Block.text).all (fun t => !t.isEmpty)
      ∧ (collect_go ns 0).map (fun b => (b.tag, b.text)) =
          (ns.filter (fun n =>
            decide (n.name ∈ BLOCK_TAGS) && !(collapse_ws n.textContent).isEmpty)).map
            (fun n => (n.name, collapse_ws n.textContent))
      ∧ collect_blocks (some ns) = .ok (collect_go ns 0) := by
  intro ns
  refine ⟨?_, ?_, collect_go_tags ns 0, rfl⟩
  · rw [List.range_eq_range']
    exact collect_go_pos_map ns 0
  · rw [List.all_eq_true]
    intro x hx
    rcases List.mem_map.mp hx with ⟨b, hb, rfl⟩
    simp [collect_go_text_mem ns 0 b hb]

theorem collect_go_all_skipped (ns : List Node) (p : Nat)
    (h : ∀ n ∈ ns, n.name ∈ BLOCK_TAGS → collapse_ws n.textContent = []) :
    collect_go ns p = [] := by
  induction ns generalizing p with
  | nil => simp [collect_go]
  | cons n rest ih =>
    have ih' := ih p (fun m hm => h m (List.mem_cons_of_mem _ hm))
    by_cases h1 : n.name ∈ BLOCK_TAGS
    · have h2 : (collapse_ws n.textContent).isEmpty = true := by
        simp [h n (List.mem_cons_self _ _) h1]
      simp [collect_go, h1, h2, ih']
    · simp [collect_go, h1, ih']

/-- C3 (amended): when the parsed document has a body but no allow-listed
element with non-empty text, the collector returns the empty block list with
no error, and every downstream stage maps the empty corpus to its empty or
minimum output (threshold `0.25`, empty dedup results, zero-length serialized
and text outputs).  When no body element exists at all, however,
`collect_blocks` raises (`soup.body` is `None`), contrary to the claim —
see the counterexample. -/
theorem C3_empty_corpus :
    ∀ (ns : List Node) (f : Nat → Nat → Bool),
      ((∀ n ∈ ns, n.name ∈ BLOCK_TAGS → collapse_ws n.textContent = []) →
        collect_blocks (some ns) = .ok [])
      ∧ auto_threshold [] = MIN_THRESH
      ∧ MIN_THRESH = 0.25
      ∧ dedup_fingerprint [] = []
      ∧ dedup_semantic f [] = []
      ∧ serialize_records [] = []
      ∧ read_paragraphs [] = []
      ∧ dedup_keep_longest [] = []
      ∧ txt_output [] = [] := by
  intro ns f
  refine ⟨?_, rfl, rfl, rfl, rfl, rfl, rfl, rfl, rfl⟩
  intro h
  simp [collect_blocks, collect_go_all_skipped ns 0 h]

/-- C3 counterexample: with no body element (`soup.body` is `None`), the
collector raises `AttributeError` instead of returning an empty sequence. -/
theorem C3_empty_corpus_counterexample :
    collect_blocks none = Except.error "AttributeError"
    ∧ (Except.error "AttributeError" : Except String (List Block)) ≠ Except.ok [] := by
  exact ⟨rfl, by simp⟩

/-- A non-block element, skipped by the collector. -/
def nodeScript : Node := ⟨"script", strCodes "var x = 1", 1⟩

/-- A block element whose text collapses to nothing. -/
def nodeEmptyP : Node := ⟨"p", strCodes "   ", 2⟩

/-- C3 witness: a body holding only a non-block element and a whitespace-only
paragraph yields zero blocks without error. -/
theorem C3_empty_corpus_witness :
    collect_blocks (some [nodeScript, nodeEmptyP]) = .ok [] :=
  (C3_empty_corpus [nodeScript, nodeEmptyP] (fun _ _ => false)).1 (by decide)

theorem read_paragraphs_nonempty (l : List JRecord) :
    (read_paragraphs l).all (fun p => !p.isEmpty) := by
  induction l with
  | nil => simp [read_paragraphs]
  | cons r rest ih =>
    by_cases h : (pyStrip (r.text.getD [])).isEmpty
    · simpa [read_paragraphs, h] using ih
    · simp [read_paragraphs, h, ih]

/-- C9: during the JSONL read-back, a record whose `text` field is missing or
null, or whose text strips to nothing, contributes no paragraph and raises no
error; a record with usable text contributes its stripped text; and every
collected paragraph is non-empty. -/
theorem C9_readback_skips_unusable :
    ∀ (r : JRecord) (rest : List JRecord) (s : Text) (l : List JRecord),
      (r.text = none → read_paragraphs (r :: rest) = read_paragraphs rest)
      ∧ (r.text = some s → pyStrip s = [] → read_paragraphs (r :: rest) = read_paragraphs rest)
      ∧ (r.text = some s → pyStrip s ≠ [] →
          read_paragraphs (r :: rest) = pyStrip s :: read_paragraphs rest)
      ∧ (read_paragraphs l).all (fun p => !p.isEmpty) := by
  intro r rest s l
  refine ⟨?_, ?_, ?_, read_paragraphs_nonempty l⟩
  · intro h
    simp [read_paragraphs, h, pyStrip]
  · intro h hs
    simp [read_paragraphs, h, hs]
  · intro h hs
    simp [read_paragraphs, h, hs]

/-- C9 witness: a null-text record and a whitespace-only record are skipped;
a usable record contributes its stripped text. -/
theorem C9_readback_skips_unusable_witness :
    read_paragraphs [⟨none⟩, ⟨some (strCodes "  ")⟩, ⟨some (strCodes " hi ")⟩]
      = [strCodes "hi"] := by
  rw [(C9_readback_skips_unusable ⟨none⟩ _ [] []).1 rfl,
    (C9_readback_skips_unusable ⟨some (strCodes "  ")⟩ _ (strCodes "  ") []).2.1 rfl (by decide),
    (C9_readback_skips_unusable ⟨some (strCodes " hi ")⟩ _ (strCodes " hi ") []).2.2.1 rfl
      (by decide)]
  decide

theorem substr_refl (l : List Nat) : l <:+: l := ⟨[], [], by simp⟩

theorem substr_eq_of_length {l₁ l₂ : List Nat} (h : l₁ <:+: l₂)
    (hlen : l₂.length ≤ l₁.length) : l₁ = l₂ :=
  h.sublist.eq_of_length (le_antisymm h.sublist.length_le hlen)

theorem keepGo_kept_mem (l : List Item) :
    ∀ (kept : List Item), ∀ x ∈ kept, x ∈ keepGo l kept := by
  induction l with
  | nil =>
    intro kept x hx
    simpa [keepGo] using hx
  | cons it rest ih =>
    intro kept x hx
    by_cases h : ∃ k ∈ kept, it.nrm <:+: k.nrm
    · simp only [keepGo, if_pos h]
      exact ih kept x hx
    · simp only [keepGo, if_neg h]
      exact ih (kept ++ [it]) x (List.mem_append_left _ hx)

theorem keepGo_mem_or_contained (l : List Item) :
    ∀ (kept : List Item), ∀ it ∈ l,
      it ∈ keepGo l kept ∨ ∃ s ∈ keepGo l kept, it.nrm <:+: s.nrm := by
  induction l with
  | nil => simp
  | cons x rest ih =>
    intro kept it hit
    by_cases h : ∃ k ∈ kept, x.nrm <:+: k.nrm
    · simp only [keepGo, if_pos h]
      rcases List.mem_cons.mp hit with rfl | hit'
      · rcases h with ⟨k, hk, hik⟩
        exact Or.inr ⟨k, keepGo_kept_mem rest kept k hk, hik⟩
      · exact ih kept it hit'
    · simp only [keepGo, if_neg h]
      rcases List.mem_cons.mp hit with rfl | hit'
      · exact Or.inl (keepGo_kept_mem rest (kept ++ [it]) it
          (List.mem_append_right _ (List.mem_singleton_self _)))
      · exact ih (kept ++ [x]) it hit'

theorem keepGo_not_mem (l : List Item) :
    ∀ (kept : List Item) (b : Item), (∃ k ∈ kept, b.nrm <:+: k.nrm) → b ∉ kept →
      b ∉ keepGo l kept := by
  induction l with
  | nil =>
    intro kept b _ hb
    simpa [keepGo] using hb
  | cons x rest ih =>
    intro kept b hcont hb
    by_cases h : ∃ k ∈ kept, x.nrm <:+: k.nrm
    · simp only [keepGo, if_pos h]
      exact ih kept b hcont hb
    · simp only [keepGo, if_neg h]
      have hbx : b ≠ x := by
        rintro rfl
        exact h hcont
      refine ih (kept ++ [x]) b ?_ ?_
      · rcases hcont with ⟨k, hk, hik⟩
        exact ⟨k, List.mem_append_left _ hk, hik⟩
      · intro hmem
        rcases List.mem_append.mp hmem with hmem' | hmem'
        · exact hb hmem'
        · exact hbx (List.mem_singleton.mp hmem')

theorem keepGo_maximal_mem (l : List Item) :
    ∀ (kept : List Item) (it : Item), it ∈ l →
      (∀ k ∈ kept, ¬ it.nrm <:+: k.nrm) →
      (∀ o ∈ l, o ≠ it → ¬ it.nrm <:+: o.nrm) →
      it ∈ keepGo l kept := by
  induction l with
  | nil => simp
  | cons x rest ih =>
    intro kept it hit hkept hmax
    by_cases hx : x = it
    · subst hx
      have h : ¬ ∃ k ∈ kept, x.nrm <:+: k.nrm := by
        rintro ⟨k, hk, hik⟩
        exact hkept k hk hik
      simp only [keepGo, if_neg h]
      exact keepGo_kept_mem rest (kept ++ [x]) x
        (List.mem_append_right _ (List.mem_singleton_self _))
    · have hit' : it ∈ rest := by
        rcases List.mem_cons.mp hit with rfl | hit'
        · exact absurd rfl hx
        · exact hit'
      have hmax' : ∀ o ∈ rest, o ≠ it → ¬ it.nrm <:+: o.nrm :=
        fun o ho => hmax o (List.mem_cons_of_mem _ ho)
      by_cases h : ∃ k ∈ kept, x.nrm <:+: k.nrm
      · simp only [keepGo, if_pos h]
        exact ih kept it hit' hkept hmax'
      · simp only [keepGo, if_neg h]
        refine ih (kept ++ [x]) it hit' ?_ hmax'
        intro k hk
        rcases List.mem_append.mp hk with hk' | hk'
        · exact hkept k hk'
        · rw [List.mem_singleton.mp hk']
          exact hmax x (List.mem_cons_self _ _) hx

theorem keepGo_sublist (l : List Item) :
    ∀ kept : List Item, keepGo l kept <+ kept ++ l := by
  induction l with
  | nil =>
    intro kept
    simp [keepGo]
  | cons x rest ih =>
    intro kept
    by_cases h : ∃ k ∈ kept, x.nrm <:+: k.nrm
    · simp only [keepGo, if_pos h]
      exact (ih kept).trans ((rest.sublist_cons_self x).append_left kept)
    · simp only [keepGo, if_neg h]
      have := ih (kept ++ [x])
      rwa [List.append_assoc, List.singleton_append] at this

theorem keepGo_antichain (l : List Item) :
    ∀ kept : List Item, l.Pairwise keyGE →
      (∀ a ∈ kept, ∀ b ∈ l, keyGE a b) →
      (∀ a ∈ kept, ∀ b ∈ kept, a ≠ b → ¬ a.nrm <:+: b.nrm) →
      ∀ a ∈ keepGo l kept, ∀ b ∈ keepGo l kept, a ≠ b → ¬ a.nrm <:+: b.nrm := by
  induction l with
  | nil =>
    intro kept _ _ hanti
    simpa [keepGo] using hanti
  | cons x rest ih =>
    intro kept hpw hge hanti
    have hpw' := (List.pairwise_cons.mp hpw).2
    have hxge := (List.pairwise_cons.mp hpw).1
    by_cases h : ∃ k ∈ kept, x.nrm <:+: k.nrm
    · simp only [keepGo, if_pos h]
      exact ih kept hpw' (fun a ha b hb => hge a ha b (List.mem_cons_of_mem _ hb)) hanti
    · simp only [keepGo, if_neg h]
      refine ih (kept ++ [x]) hpw' ?_ ?_
      · intro a ha b hb
        rcases List.mem_append.mp ha with ha' | ha'
        · exact hge a ha' b (List.mem_cons_of_mem _ hb)
        · rw [List.mem_singleton.mp ha']
          exact hxge b hb
      · intro a ha b hb hab
        rcases List.mem_append.mp ha with ha' | ha' <;>
          rcases List.mem_append.mp hb with hb' | hb'
        · exact hanti a ha' b hb' hab
        · rw [List.mem_singleton.mp hb']
          intro hinf
          have hkey : keyGE a x := hge a ha' x (List.mem_cons_self _ _)
          have heq : a.nrm = x.nrm := substr_eq_of_length hinf hkey
          exact h ⟨a, ha', heq ▸ substr_refl x.nrm⟩
        · rw [List.mem_singleton.mp ha']
          intro hinf
          exact h ⟨b, hb', hinf⟩
        · exact absurd ((List.mem_singleton.mp ha').trans
            (List.mem_singleton.mp hb').symm) hab

/-- The items list of `_dedup_keep_longest` (starting index 0). -/
def itemsOf (lines : List Text) : List Item := buildItems 0 lines

/-- The items after the stable descending sort by normalized length. -/
def sortedItems (lines : List Text) : List Item :=
  List.insertionSort keyGE (itemsOf lines)

/-- The accepted items, in acceptance order. -/
def keptItems (lines : List Text) : List Item := keepGo (sortedItems lines) []

theorem buildItems_idx_map (xs : List Text) :
    ∀ i, (buildItems i xs).map Item.idx = List.range' i xs.length := by
  induction xs with
  | nil => intro i; simp [buildItems]
  | cons x rest ih =>
    intro i
    simp [buildItems, List.range'_succ, ih]

theorem buildItems_nodup (xs : List Text) (i : Nat) : (buildItems i xs).Nodup := by
  have h : ((buildItems i xs).map Item.idx).Nodup := by
    rw [buildItems_idx_map]
    exact List.nodup_range' _ _
  exact h.of_map _

theorem buildItems_idx_ge (xs : List Text) :
    ∀ i, ∀ it ∈ buildItems i xs, i ≤ it.idx := by
  induction xs with
  | nil => simp [buildItems]
  | cons x rest ih =>
    intro i it hit
    rcases List.mem_cons.mp hit with rfl | hit'
    · exact le_refl _
    · exact le_trans (Nat.le_succ i) (ih (i + 1) it hit')

theorem buildItems_mem_at (xs : List Text) :
    ∀ (i j : Nat) (h : j < xs.length),
      (⟨i + j, xs.get ⟨j, h⟩, normalize (xs.get ⟨j, h⟩)⟩ : Item) ∈ buildItems i xs := by
  induction xs with
  | nil =>
    intro i j h
    exact absurd h (by simp)
  | cons x rest ih =>
    intro i j h
    cases j with
    | zero => simp [buildItems]
    | succ j' =>
      simp only [buildItems, List.mem_cons, List.get_cons_succ]
      right
      rw [show i + (j' + 1) = (i + 1) + j' from by omega]
      exact ih (i + 1) j' (Nat.lt_of_succ_lt_succ h)

theorem buildItems_idx_inj (xs : List Text) :
    ∀ i (a b : Item), a ∈ buildItems i xs → b ∈ buildItems i xs → a.idx = b.idx →
      a = b := by
  induction xs with
  | nil => simp [buildItems]
  | cons x rest ih =>
    intro i a b ha hb heq
    rcases List.mem_cons.mp ha with rfl | ha' <;> rcases List.mem_cons.mp hb with rfl | hb'
    · rfl
    · have := buildItems_idx_ge rest (i + 1) b hb'
      simp only [] at heq
      omega
    · have := buildItems_idx_ge rest (i + 1) a ha'
      simp only [] at heq
      omega
    · exact ih (i + 1) a b ha' hb' heq

theorem mem_sortedItems_iff {lines : List Text} {it : Item} :
    it ∈ sortedItems lines ↔ it ∈ itemsOf lines :=
  (List.perm_insertionSort keyGE (itemsOf lines)).mem_iff

theorem mem_survivors_iff {lines : List Text} {it : Item} :
    it ∈ survivors lines ↔ it ∈ keptItems lines :=
  (List.perm_insertionSort idxLE (keptItems lines)).mem_iff

theorem keptItems_sublist (lines : List Text) : keptItems lines <+ sortedItems lines := by
  simpa using keepGo_sublist (sortedItems lines) []

theorem mem_keptItems_sub (lines : List Text) :
    ∀ it ∈ keptItems lines, it ∈ itemsOf lines :=
  fun _ h => mem_sortedItems_iff.mp ((keptItems_sublist lines).subset h)

theorem sortedItems_nodup (lines : List Text) : (sortedItems lines).Nodup :=
  ((List.perm_insertionSort keyGE (itemsOf lines)).nodup_iff).mpr (buildItems_nodup lines 0)

theorem sortedItems_pairwise (lines : List Text) : (sortedItems lines).Pairwise keyGE :=
  List.sorted_insertionSort keyGE (itemsOf lines)

theorem survivors_idx_nodup (lines : List Text) :
    ((survivors lines).map Item.idx).Nodup := by
  have h0 : ((itemsOf lines).map Item.idx).Nodup := by
    rw [itemsOf, buildItems_idx_map]
    exact List.nodup_range' _ _
  have h1 : ((sortedItems lines).map Item.idx).Nodup :=
    (((List.perm_insertionSort keyGE (itemsOf lines)).map Item.idx).nodup_iff).mpr h0
  have h2 : ((keptItems lines).map Item.idx).Nodup :=
    h1.sublist ((keptItems_sublist lines).map Item.idx)
  exact (((List.perm_insertionSort idxLE (keptItems lines)).map Item.idx).nodup_iff).mpr h2

theorem survivors_pairwise_idx_lt (lines : List Text) :
    (survivors lines).Pairwise (fun a b => a.idx < b.idx) := by
  have hs : (survivors lines).Pairwise idxLE :=
    List.sorted_insertionSort idxLE (keptItems lines)
  have hn : (survivors lines).Pairwise (fun a b => a.idx ≠ b.idx) :=
    List.pairwise_map.mp (survivors_idx_nodup lines)
  exact (hs.and hn).imp fun h => lt_of_le_of_ne h.1 h.2

theorem items_sublist_raw (xs : List Text) :
    ∀ (i : Nat) (l : List Item), (∀ it ∈ l, it ∈ buildItems i xs) →
      l.Pairwise (fun a b => a.idx < b.idx) → l.map Item.raw <+ xs := by
  induction xs with
  | nil =>
    intro i l hmem _
    cases l with
    | nil => simp
    | cons a l' => exact absurd (hmem a (List.mem_cons_self _ _)) (by simp [buildItems])
  | cons x rest ih =>
    intro i l hmem hpw
    cases l with
    | nil => simp
    | cons a l' =>
      have hpw' := (List.pairwise_cons.mp hpw).2
      have halt := (List.pairwise_cons.mp hpw).1
      rcases List.mem_cons.mp (hmem a (List.mem_cons_self _ _)) with rfl | ha'
      · simp only [List.map_cons]
        refine List.Sublist.cons₂ x (ih (i + 1) l' ?_ hpw')
        intro b hb
        rcases List.mem_cons.mp (hmem b (List.mem_cons_of_mem _ hb)) with rfl | hb'
        · exact absurd (halt _ hb) (by simp)
        · exact hb'
      · have hall : ∀ b ∈ a :: l', b ∈ buildItems (i + 1) rest := by
          intro b hb
          rcases List.mem_cons.mp hb with rfl | hb'
          · exact ha'
          · rcases List.mem_cons.mp (hmem b (List.mem_cons_of_mem _ hb')) with rfl | hbb
            · have hge := buildItems_idx_ge rest (i + 1) a ha'
              have hlt : a.idx < i := halt _ hb'
              omega
            · exact hbb
        exact List.Sublist.cons x (ih (i + 1) (a :: l') hall hpw)

theorem survivors_raw_sublist (lines : List Text) :
    dedup_keep_longest lines <+ lines := by
  refine items_sublist_raw lines 0 (survivors lines) ?_ (survivors_pairwise_idx_lt lines)
  intro it hit
  exact mem_keptItems_sub lines it (mem_survivors_iff.mp hit)

/-- C4: in the containment dedup pass, a dropped paragraph's normalized form
is always a substring of some survivor's normalized form; no survivor's
normalized form is a substring of another survivor's (so a paragraph
contained in another surviving paragraph is always dropped); a paragraph
whose normalized form is contained in no other paragraph's (the longest
member of its duplicate cluster) always survives; and the output preserves
the original relative input order (it is a subsequence of the input). -/
theorem C4_containment_dedup :
    ∀ lines : List Text,
      (∀ it ∈ itemsOf lines, it ∉ survivors lines →
        ∃ s ∈ survivors lines, it.nrm <:+: s.nrm)
      ∧ (∀ s ∈ survivors lines, ∀ u ∈ survivors lines, s ≠ u → ¬ s.nrm <:+: u.nrm)
      ∧ (∀ it ∈ itemsOf lines, (∀ o ∈ itemsOf lines, o ≠ it → ¬ it.nrm <:+: o.nrm) →
          it ∈ survivors lines)
      ∧ dedup_keep_longest lines <+ lines := by
  intro lines
  refine ⟨?_, ?_, ?_, survivors_raw_sublist lines⟩
  · intro it hit hnot
    rcases keepGo_mem_or_contained (sortedItems lines) [] it
        (mem_sortedItems_iff.mpr hit) with h | ⟨s, hs, hinf⟩
    · exact absurd (mem_survivors_iff.mpr h) hnot
    · exact ⟨s, mem_survivors_iff.mpr hs, hinf⟩
  · intro s hs u hu hne
    exact keepGo_antichain (sortedItems lines) [] (sortedItems_pairwise lines)
      (by simp) (by simp) s (mem_survivors_iff.mp hs) u (mem_survivors_iff.mp hu) hne
  · intro it hit hmax
    refine mem_survivors_iff.mpr
      (keepGo_maximal_mem (sortedItems lines) [] it
        (mem_sortedItems_iff.mpr hit) (by simp) ?_)
    intro o ho hne
    exact hmax o (mem_sortedItems_iff.mp ho) hne

/-- First line of the C4 example (a longer paragraph containing the other). -/
def C4demoA : Text := strCodes "Read more about our product"

/-- Second line of the C4 example (a contained fragment). -/
def C4demoB : Text := strCodes "Read more"

/-- C4 witness: on the two-line example, the containing paragraph (contained
in no other) survives and the output is a subsequence of the input. -/
theorem C4_containment_dedup_witness :
    (⟨0, C4demoA, normalize C4demoA⟩ : Item) ∈ survivors [C4demoA, C4demoB]
    ∧ dedup_keep_longest [C4demoA, C4demoB] <+ [C4demoA, C4demoB] :=
  ⟨(C4_containment_dedup [C4demoA, C4demoB]).2.2.1 _ (by decide) (by decide),
   (C4_containment_dedup [C4demoA, C4demoB]).2.2.2⟩

theorem filter_orderedInsert_pos (a : Item) (L : Nat) (ha : a.nrm.length = L) :
    ∀ l : List Item,
      (List.orderedInsert keyGE a l).filter (fun b => b.nrm.length == L)
        = a :: l.filter (fun b => b.nrm.length == L) := by
  intro l
  induction l with
  | nil => simp [List.orderedInsert, ha]
  | cons b bs ih =>
    by_cases h : keyGE a b
    · simp only [List.orderedInsert, if_pos h]
      rw [List.filter_cons_of_pos (by simp [ha])]
    · have hlen : a.nrm.length < b.nrm.length := by
        unfold keyGE at h
        omega
      have hb : ¬ b.nrm.length = L := by omega
      simp only [List.orderedInsert, if_neg h]
      rw [List.filter_cons_of_neg (by simp [hb]), ih,
        List.filter_cons_of_neg (by simp [hb])]

theorem filter_orderedInsert_neg (a : Item) (L : Nat) (ha : ¬ a.nrm.length = L) :
    ∀ l : List Item,
      (List.orderedInsert keyGE a l).filter (fun b => b.nrm.length == L)
        = l.filter (fun b => b.nrm.length == L) := by
  intro l
  induction l with
  | nil => simp [List.orderedInsert, ha]
  | cons b bs ih =>
    by_cases h : keyGE a b
    · simp only [List.orderedInsert, if_pos h]
      rw [List.filter_cons_of_neg (by simp [ha])]
    · simp only [List.orderedInsert, if_neg h]
      by_cases hb : b.nrm.length = L
      · rw [List.filter_cons_of_pos (by simp [hb]), ih,
          List.filter_cons_of_pos (by simp [hb])]
      · rw [List.filter_cons_of_neg (by simp [hb]), ih,
          List.filter_cons_of_neg (by simp [hb])]

/-- Stability of the descending sort: the sublist of items of any fixed
normalized length is unchanged (CPython's sort is stable; so is this one). -/
theorem sortDesc_filter_stable (L : Nat) :
    ∀ l : List Item,
      (List.insertionSort keyGE l).filter (fun b => b.nrm.length == L)
        = l.filter (fun b => b.nrm.length == L) := by
  intro l
  induction l with
  | nil => rfl
  | cons a l ih =>
    simp only [List.insertionSort]
    by_cases ha : a.nrm.length = L
    · rw [filter_orderedInsert_pos a L ha _, ih, List.filter_cons_of_pos (by simp [ha])]
    · rw [filter_orderedInsert_neg a L ha _, ih, List.filter_cons_of_neg (by simp [ha])]

/-- `a` occurs strictly before `b` in the list `l`. -/
def Before (a b : Item) (l : List Item) : Prop :=
  ∃ l₁ l₂, l = l₁ ++ a :: l₂ ∧ b ∈ l₂

theorem Before.cons_extend {a b x : Item} {l : List Item} (h : Before a b l) :
    Before a b (x :: l) := by
  obtain ⟨l₁, l₂, rfl, hb⟩ := h
  exact ⟨x :: l₁, l₂, rfl, hb⟩

theorem before_filter_out {a b : Item} (p : Item → Bool) :
    ∀ l, Before a b (l.filter p) → Before a b l := by
  intro l
  induction l with
  | nil =>
    intro h
    obtain ⟨l₁, l₂, heq, _⟩ := h
    exact absurd heq (by simp)
  | cons x xs ih =>
    intro h
    by_cases hp : p x
    · rw [List.filter_cons_of_pos hp] at h
      obtain ⟨l₁, l₂, heq, hb⟩ := h
      cases l₁ with
      | nil =>
        simp only [List.nil_append] at heq
        injection heq with h1 h2
        subst h1
        exact ⟨[], xs, rfl, List.mem_of_mem_filter (h2 ▸ hb)⟩
      | cons c l₁' =>
        injection heq with h1 h2
        exact (ih ⟨l₁', l₂, h2, hb⟩).cons_extend
    · rw [List.filter_cons_of_neg hp] at h
      exact (ih h).cons_extend

theorem before_filter_in {a b : Item} (p : Item → Bool)
    (hpa : p a = true) (hpb : p b = true) :
    ∀ l, Before a b l → Before a b (l.filter p) := by
  intro l
  induction l with
  | nil =>
    intro h
    obtain ⟨l₁, l₂, heq, _⟩ := h
    exact absurd heq (by simp)
  | cons x xs ih =>
    intro h
    obtain ⟨l₁, l₂, heq, hb⟩ := h
    cases l₁ with
    | nil =>
      simp only [List.nil_append] at heq
      injection heq with h1 h2
      subst h1
      rw [List.filter_cons_of_pos hpa]
      exact ⟨[], xs.filter p, rfl, List.mem_filter.mpr ⟨by rw [h2]; exact hb, hpb⟩⟩
    | cons c l₁' =>
      injection heq with h1 h2
      have hrec := ih ⟨l₁', l₂, h2, hb⟩
      by_cases hp : p x
      · rw [List.filter_cons_of_pos hp]
        exact hrec.cons_extend
      · rw [List.filter_cons_of_neg hp]
        exact hrec

theorem before_buildItems (xs : List Text) :
    ∀ (i0 i j : Nat) (hi : i < xs.length) (hj : j < xs.length), i < j →
      Before ⟨i0 + i, xs.get ⟨i, hi⟩, normalize (xs.get ⟨i, hi⟩)⟩
        ⟨i0 + j, xs.get ⟨j, hj⟩, normalize (xs.get ⟨j, hj⟩)⟩ (buildItems i0 xs) := by
  induction xs with
  | nil =>
    intro i0 i j hi
    exact absurd hi (by simp)
  | cons x rest ih =>
    intro i0 i j hi hj hij
    cases i with
    | zero =>
      cases j with
      | zero => exact absurd hij (lt_irrefl 0)
      | succ j' =>
        refine ⟨[], buildItems (i0 + 1) rest, by simp [buildItems], ?_⟩
        have hmem := buildItems_mem_at rest (i0 + 1) j' (Nat.lt_of_succ_lt_succ hj)
        simp only [List.get_cons_succ]
        rw [show i0 + (j' + 1) = (i0 + 1) + j' from by omega]
        exact hmem
    | succ i' =>
      cases j with
      | zero => exact absurd hij (by omega)
      | succ j' =>
        have hrec := ih (i0 + 1) i' j' (Nat.lt_of_succ_lt_succ hi)
          (Nat.lt_of_succ_lt_succ hj) (by omega)
        simp only [List.get_cons_succ]
        rw [show i0 + (i' + 1) = (i0 + 1) + i' from by omega,
          show i0 + (j' + 1) = (i0 + 1) + j' from by omega]
        simp only [buildItems]
        exact hrec.cons_extend

theorem keepGo_drops_later (l : List Item) :
    ∀ (kept : List Item) (a b : Item),
      l.Nodup → Before a b l → a.nrm = b.nrm → b ∉ kept → b ∉ keepGo l kept := by
  induction l with
  | nil =>
    intro kept a b _ hbef
    obtain ⟨l₁, l₂, heq, _⟩ := hbef
    exact absurd heq (by simp)
  | cons x rest ih =>
    intro kept a b hnd hbef hab hbk
    obtain ⟨l₁, l₂, heq, hb⟩ := hbef
    have hx_not : x ∉ rest := (List.nodup_cons.mp hnd).1
    have hnd' := (List.nodup_cons.mp hnd).2
    cases l₁ with
    | nil =>
      simp only [List.nil_append] at heq
      injection heq with h1 h2
      subst h1
      subst h2
      have hba : b ≠ x := fun h => hx_not (h ▸ hb)
      by_cases h : ∃ k ∈ kept, x.nrm <:+: k.nrm
      · simp only [keepGo, if_pos h]
        rcases h with ⟨k, hk, hik⟩
        refine keepGo_not_mem rest kept b ⟨k, hk, ?_⟩ hbk
        rw [← hab]
        exact hik
      · simp only [keepGo, if_neg h]
        refine keepGo_not_mem rest (kept ++ [x]) b
          ⟨x, List.mem_append_right _ (List.mem_singleton_self x), ?_⟩ ?_
        · rw [← hab]
        · intro hmem
          rcases List.mem_append.mp hmem with h' | h'
          · exact hbk h'
          · exact hba (List.mem_singleton.mp h')
    | cons c l₁' =>
      injection heq with h1 h2
      subst h1
      have hbef' : Before a b rest := ⟨l₁', l₂, h2, hb⟩
      have hbr : b ∈ rest := by
        rw [h2]
        exact List.mem_append_right _ (List.mem_cons_of_mem _ hb)
      have hbx : b ≠ x := fun h => hx_not (h ▸ hbr)
      by_cases h : ∃ k ∈ kept, x.nrm <:+: k.nrm
      · simp only [keepGo, if_pos h]
        exact ih kept a b hnd' hbef' hab hbk
      · simp only [keepGo, if_neg h]
        refine ih (kept ++ [x]) a b hnd' hbef' hab ?_
        intro hmem
        rcases List.mem_append.mp hmem with h' | h'
        · exact hbk h'
        · exact hbx (List.mem_singleton.mp h')

/-- C10 (amended): when two paragraphs have identical normalized forms, the
later one is always dropped (stable descending sort places the earlier one
first, and an accepted normalized form is a substring of itself); the earlier
one, however, survives only when its normalized form is not a substring of
some other surviving paragraph's normalized form — it is NOT always kept. -/
theorem C10_equal_normalized (lines : List Text) (i j : Nat)
    (hij : i < j) (hi : i < lines.length) (hj : j < lines.length)
    (hnrm : normalize (lines.get ⟨i, hi⟩) = normalize (lines.get ⟨j, hj⟩)) :
    j ∉ (survivors lines).map Item.idx
    ∧ ((∀ s ∈ survivors lines, s.idx ≠ i →
          ¬ normalize (lines.get ⟨i, hi⟩) <:+: s.nrm) →
        i ∈ (survivors lines).map Item.idx) := by
  have hamem : (⟨i, lines.get ⟨i, hi⟩, normalize (lines.get ⟨i, hi⟩)⟩ : Item)
      ∈ itemsOf lines := by
    have := buildItems_mem_at lines 0 i hi
    simpa using this
  have hbmem : (⟨j, lines.get ⟨j, hj⟩, normalize (lines.get ⟨j, hj⟩)⟩ : Item)
      ∈ itemsOf lines := by
    have := buildItems_mem_at lines 0 j hj
    simpa using this
  set a : Item := ⟨i, lines.get ⟨i, hi⟩, normalize (lines.get ⟨i, hi⟩)⟩ with hadef
  set b : Item := ⟨j, lines.get ⟨j, hj⟩, normalize (lines.get ⟨j, hj⟩)⟩ with hbdef
  have hanrm : a.nrm = b.nrm := hnrm
  have hbefore : Before a b (itemsOf lines) := by
    have := before_buildItems lines 0 i j hi hj hij
    simpa using this
  have hpa : (fun it : Item => it.nrm.length == a.nrm.length) a = true := by simp
  have hpb : (fun it : Item => it.nrm.length == a.nrm.length) b = true := by
    show (b.nrm.length == a.nrm.length) = true
    rw [hanrm]
    simp
  have hbf1 : Before a b ((itemsOf lines).filter
      (fun it => it.nrm.length == a.nrm.length)) :=
    before_filter_in _ hpa hpb _ hbefore
  have hbf2 : Before a b ((sortedItems lines).filter
      (fun it => it.nrm.length == a.nrm.length)) := by
    rw [sortedItems, sortDesc_filter_stable]
    exact hbf1
  have hbf3 : Before a b (sortedItems lines) := before_filter_out _ _ hbf2
  have hbnot : b ∉ keptItems lines :=
    keepGo_drops_later (sortedItems lines) [] a b (sortedItems_nodup lines)
      hbf3 hanrm (by simp)
  constructor
  · intro hjmem
    rcases List.mem_map.mp hjmem with ⟨s, hs, hsidx⟩
    have hs' : s ∈ keptItems lines := mem_survivors_iff.mp hs
    have hsi : s ∈ itemsOf lines := mem_keptItems_sub lines s hs'
    have hsb : s = b := buildItems_idx_inj lines 0 s b hsi hbmem hsidx
    exact hbnot (hsb ▸ hs')
  · intro hno
    rcases keepGo_mem_or_contained (sortedItems lines) [] a
        (mem_sortedItems_iff.mpr hamem) with h | ⟨s, hs, hinf⟩
    · exact List.mem_map.mpr ⟨a, mem_survivors_iff.mpr h, rfl⟩
    · have hssurv : s ∈ survivors lines := mem_survivors_iff.mpr hs
      by_cases hsidx : s.idx = i
      · have hsi : s ∈ itemsOf lines := mem_keptItems_sub lines s hs
        have hsa : s = a := buildItems_idx_inj lines 0 s a hsi hamem hsidx
        exact List.mem_map.mpr ⟨a, hsa ▸ hssurv, rfl⟩
      · exact absurd hinf (hno s hssurv hsidx)

/-- C10 counterexample: in `["x b y", "b.", "b"]` the paragraphs at indices 1
and 2 have the same normalized form `"b"`, yet the earlier of the two (index
1) does not survive — its normalized form is contained in the surviving
paragraph `"x b y"` — refuting the claim that the smaller-index member of an
equal-normalized pair always survives. -/
theorem C10_equal_normalized_counterexample :
    normalize (strCodes "b.") = normalize (strCodes "b")
    ∧ 1 ∉ (survivors [strCodes "x b y", strCodes "b.", strCodes "b"]).map Item.idx := by
  decide

/-- C10 witness: in `["hello world", "hi.", "hi"]` the paragraphs at indices
1 and 2 have equal normalized forms; the later one (index 2) is dropped and
the earlier one (index 1), contained in no other survivor, survives. -/
theorem C10_equal_normalized_witness :
    2 ∉ (survivors [strCodes "hello world", strCodes "hi.", strCodes "hi"]).map Item.idx
    ∧ 1 ∈ (survivors [strCodes "hello world", strCodes "hi.", strCodes "hi"]).map Item.idx := by
  have h := C10_equal_normalized [strCodes "hello world", strCodes "hi.", strCodes "hi"]
    1 2 (by decide) (by decide) (by decide) (by decide)
  exact ⟨h.1, h.2 (by decide)⟩

end HX
